import Mathlib

/-!
Verification of the structured mutation operators of
`nevergrad/parametrization/mutation.py` (Crossover, Translation,
LocalGaussian, TunedTranslation) against the repository's specification.

Modelling conventions:
* numpy arrays are modelled as a shape (list of extents) together with a
  total function from multi-indices to rational values;
* the pseudo-random source is an explicit oracle (`Nat → Nat` for integer
  draws, `List Nat → ℚ` for the Gaussian draws); every integer draw is
  reduced into its range with `%`, so any value of the range is reachable
  by some oracle;
* Python exceptions are modelled by their exception class: `Exception`
  (the arity check of `Crossover._apply_array`), `AssertionError` (shape /
  arity asserts), and `ValueError` (raised by `_make_slices` on an axis of
  extent ≤ 1, and by `numpy.random.RandomState.randint` on an empty
  range).  The spec's taxonomy maps these to `ArityError`,
  `ShapeMismatchError` and `InvalidAxisError` respectively;
* the IEEE-754 double arithmetic of the default `max_size` expression
  `int(((size + 1) / 2)**(1 / len(axis)))` is idealised as exact real
  arithmetic: the floor of the `k`-th root of `(n + 1) / 2`.
-/

namespace Mutation

/-- Python exception classes raised by the mutation operators. -/
inductive PyErr where
  | exception
  | assertionError
  | valueError
deriving DecidableEq, Repr

/-- A numpy ndarray: a shape and the element at each multi-index. -/
@[ext]
structure NdArray where
  shape : List Nat
  data : List Nat → ℚ

instance : Inhabited NdArray := ⟨⟨[], fun _ => 0⟩⟩

/-- `numpy.random.RandomState.randint(hi)`: a uniform draw from `[0, hi)`;
`ValueError` when the range is empty (`hi ≤ 0`).  `r` is the raw oracle
value, reduced into the range with `%` so that every element of the range
is reachable. -/
def randBelow (r : Nat) (hi : Int) : Except PyErr Nat :=
  if 0 < hi then .ok (r % hi.toNat) else .error .valueError

/-- A multi-index is inside the window described by `slices` when each of
its coordinates lies in the corresponding half-open `(start, stop)` range
(the region written by `result[tuple(slices)] = ...`). -/
def inWindow (slices : List (Nat × Nat)) (idx : List Nat) : Bool :=
  (slices.zip idx).all fun p => p.1.1 ≤ p.2 && p.2 < p.1.2

/-- Loop body of `_make_slices`, with `a` the position counter of
`enumerate(shape)`: a targeted axis of extent `s ≤ 1` raises
`ValueError`, otherwise a targeted axis draws
`start = rng.randint(s - size)` and contributes `(start, start + size)`;
an untargeted axis contributes `(0, s)`. -/
def makeSlicesFrom (axes : List Nat) (size : Nat) (rng : Nat → Nat) :
    Nat → List Nat → Except PyErr (List (Nat × Nat))
  | _, [] => .ok []
  | a, s :: rest =>
    if a ∈ axes then
      if s ≤ 1 then .error .valueError
      else
        match randBelow (rng a) ((s : Int) - (size : Int)) with
        | .error e => .error e
        | .ok start =>
          match makeSlicesFrom axes size rng (a + 1) rest with
          | .error e => .error e
          | .ok tail => .ok ((start, start + size) :: tail)
    else
      match makeSlicesFrom axes size rng (a + 1) rest with
      | .error e => .error e
      | .ok tail => .ok ((0, s) :: tail)

/-- `_make_slices(shape, axes, size, rng)`. -/
def makeSlices (shape axes : List Nat) (size : Nat) (rng : Nat → Nat) :
    Except PyErr (List (Nat × Nat)) :=
  makeSlicesFrom axes size rng 0 shape

/-- Configuration of a `Crossover` operator: the `axis`, `max_size` and
`fft` sub-parameters (`None` modelled by `Option`). -/
structure Crossover where
  axis : Option (List Nat)
  maxSize : Option Nat
  fft : Bool

/-- `tuple(range(len(shape))) if self.axis is None else self.axis`. -/
def resolveAxes (axis : Option (List Nat)) (shape : List Nat) : List Nat :=
  axis.getD (List.range shape.length)

/-- Default `max_size`: `int(((arrays[0].size + 1) / 2)**(1 / len(axis)))`,
idealising IEEE-754 arithmetic as exact: the largest `m` with
`m ^ k ≤ (n + 1) / 2`, i.e. `⌊((n + 1) / 2) ^ (1 / k)⌋`. -/
def defaultMaxSize (n k : Nat) : Nat :=
  Nat.findGreatest (fun m => 2 * m ^ k ≤ n + 1) (n + 1)

/-- `max_size` before clamping: the configured value, or the default. -/
def Crossover.resolveMaxSize (c : Crossover) (shape axis : List Nat) : Nat :=
  match c.maxSize with
  | none => defaultMaxSize shape.prod axis.length
  | some m => m

/-- `min(max_size, *(shape[a] - 1 for a in axis))` (in `Int`, since
`shape[a] - 1` may be `0` and the comparison is on Python ints). -/
def clampMaxSize (m0 : Nat) (shape axis : List Nat) : Int :=
  (axis.map fun a => (shape.getD a 0 : Int) - 1).foldl min (m0 : Int)

/-- `size = 1 if max_size == 1 else self.random_state.randint(1, max_size)`:
a uniform draw from `[1, cm)`; numpy raises `ValueError` when the range is
empty (`cm ≤ 1`, after the `== 1` special case). -/
def drawSize (cm : Int) (r : Nat) : Except PyErr Nat :=
  if cm = 1 then .ok 1
  else if 1 < cm then .ok (1 + r % (cm - 1).toNat)
  else .error .valueError

/-- `result = np.array(arrays[0], copy=True); result[slices] = arrays[1][slices]`. -/
def windowOverwrite (a b : NdArray) (slices : List (Nat × Nat)) : NdArray :=
  ⟨a.shape, fun idx => if inWindow slices idx then b.data idx else a.data idx⟩

/-- `arrays = [transf.forward(a) for a in arrays]` when the `fft` flag is
set (the spectral transform itself is an external collaborator). -/
def transformed (c : Crossover) (fwd : NdArray → NdArray) (arrays : List NdArray) :
    List NdArray :=
  if c.fft then arrays.map fwd else arrays

/-- `Crossover._apply_array`, with the external Fourrier transform passed
as `fwd`/`bwd`.  `rSize` is the oracle draw for the window size, `rng` the
oracle for the window starts. -/
def Crossover.applyArray (c : Crossover) (fwd bwd : NdArray → NdArray)
    (rSize : Nat) (rng : Nat → Nat) (arrays : List NdArray) : Except PyErr NdArray :=
  if arrays.length ≠ 2 then .error .exception
  else
    let arrs := transformed c fwd arrays
    let a0 := arrs.getD 0 default
    let a1 := arrs.getD 1 default
    let shape := a0.shape
    if shape ≠ a1.shape then .error .assertionError
    else
      let axis := resolveAxes c.axis shape
      -- an empty resolved axis tuple raises in Python (`1 / len(axis)` is a
      -- ZeroDivisionError, `min(max_size)` a TypeError); no claim reaches it
      if axis = [] then .error .exception
      else
        let cm := clampMaxSize (c.resolveMaxSize shape axis) shape axis
        match drawSize cm rSize with
        | .error e => .error e
        | .ok size =>
          match makeSlices shape axis size rng with
          | .error e => .error e
          | .ok slices =>
            let result := windowOverwrite a0 a1 slices
            .ok (if c.fft then bwd result else result)

/-- `Crossover.apply`: computes the new value, optionally clips it (the
external `Clipping` transform, applied only in `fft` mode when bounds are
declared), then assigns it to `arrays[0]`; an exception raised while
computing propagates before any write, leaving the arrays untouched. -/
def Crossover.applyPost (c : Crossover) (fwd bwd clip : NdArray → NdArray)
    (hasBounds : Bool) (rSize : Nat) (rng : Nat → Nat) (arrays : List NdArray) :
    Option PyErr × List NdArray :=
  match c.applyArray fwd bwd rSize rng arrays with
  | .error e => (some e, arrays)
  | .ok v => (none, arrays.set 0 (if c.fft && hasBounds then clip v else v))

/-- `idx` is a valid multi-index for `shape`: same length, each coordinate
below the corresponding extent. -/
def validIdx : List Nat → List Nat → Bool
  | [], [] => true
  | s :: srest, i :: irest => i < s && validIdx srest irest
  | _, _ => false

/-- First shift associated with axis `p` by the paired `axes`/`shifts`
lists (the association built by `np.roll(data, shifts, axis=axis)`). -/
def shiftFor : List Nat → List Nat → Nat → Option Nat
  | a :: arest, k :: krest, p => if p = a then some k else shiftFor arest krest p
  | _, _, _ => none

/-- Source coordinate of a cyclic shift by `k` on an axis of extent
`extent`: `np.roll` puts `x[(i - k) mod extent]` at position `i`. -/
def rollIndexEntry (extent k i : Nat) : Nat :=
  (i + (extent - k % extent)) % extent

/-- Source multi-index of `np.roll(x, shifts, axis=axes)` at `idx`:
walks the shape and the index in parallel (`p` is the absolute axis
position), applying `rollIndexEntry` on rolled axes. -/
def rollSourceIdx (axes shifts : List Nat) : List Nat → List Nat → Nat → List Nat
  | s :: srest, i :: irest, p =>
    (match shiftFor axes shifts p with
     | some k => rollIndexEntry s k i
     | none => i) :: rollSourceIdx axes shifts srest irest (p + 1)
  | _, irest, _ => irest

/-- `np.roll(x, shifts, axis=axes)` (axes assumed distinct, as produced by
the operators). -/
def NdArray.roll (x : NdArray) (axes shifts : List Nat) : NdArray :=
  ⟨x.shape, fun idx => x.data (rollSourceIdx axes shifts x.shape idx 0)⟩

/-- Configuration of a `Translation` operator. -/
structure Translation where
  axis : Option (List Nat)

/-- `[self.random_state.randint(data.shape[a]) for a in axis]` (`j` is the
oracle position of the draw). -/
def drawShiftsFrom (shape : List Nat) (rng : Nat → Nat) :
    Nat → List Nat → Except PyErr (List Nat)
  | _, [] => .ok []
  | j, a :: rest =>
    match randBelow (rng j) (shape.getD a 0 : Int) with
    | .error e => .error e
    | .ok k =>
      match drawShiftsFrom shape rng (j + 1) rest with
      | .error e => .error e
      | .ok tail => .ok (k :: tail)

/-- `Translation._apply_array`. -/
def Translation.applyArray (t : Translation) (rng : Nat → Nat)
    (arrays : List NdArray) : Except PyErr NdArray :=
  if arrays.length ≠ 1 then .error .assertionError
  else
    let data := arrays.getD 0 default
    let axis := resolveAxes t.axis data.shape
    match drawShiftsFrom data.shape rng 0 axis with
    | .error e => .error e
    | .ok shifts => .ok (data.roll axis shifts)

/-- Modelled from the spec: the base `Mutation.apply` (in `data.py`, not
part of this core) "computes a new raw array via `computeResult(arrays)`
and assigns it as the new value of `arrays[0]`"; an exception raised by
`computeResult` propagates before the write. -/
def mutationApplyPost (computeResult : List NdArray → Except PyErr NdArray)
    (arrays : List NdArray) : Option PyErr × List NdArray :=
  match computeResult arrays with
  | .error e => (some e, arrays)
  | .ok v => (none, arrays.set 0 v)

/-- Modelled from the spec: an Array parameter's view used by
`LocalGaussian` — its shape and its standardized/unconstrained
representation ("a parallel standardized/unconstrained representation";
`setStandardizedData` sets the unconstrained representation).  The raveled
1-D buffer is modelled by keeping the shape-indexed form. -/
structure ArrayParam where
  shape : List Nat
  std : List Nat → ℚ

instance : Inhabited ArrayParam := ⟨⟨[], fun _ => 0⟩⟩

/-- Configuration of a `LocalGaussian` operator. -/
structure LocalGaussian where
  axes : Option (List Nat)
  size : Nat

/-- `LocalGaussian.apply`: builds a zero array of the target's shape, adds
standard-normal noise (oracle `noise`) inside the drawn window, and writes
the result back as the target's standardized representation. -/
def LocalGaussian.apply (g : LocalGaussian) (rng : Nat → Nat) (noise : List Nat → ℚ)
    (params : List ArrayParam) : Except PyErr (List ArrayParam) :=
  if params.length ≠ 1 then .error .assertionError
  else
    let p := params.getD 0 default
    let axis := resolveAxes g.axes p.shape
    match makeSlices p.shape axis g.size rng with
    | .error e => .error e
    | .ok slices =>
      .ok [{ p with std := fun idx => if inWindow slices idx then noise idx else 0 }]

/-- `LocalGaussian.apply` as a state transition: on an exception the
parameter list is left untouched. -/
def LocalGaussian.applyPost (g : LocalGaussian) (rng : Nat → Nat) (noise : List Nat → ℚ)
    (params : List ArrayParam) : Option PyErr × List ArrayParam :=
  match g.apply rng noise params with
  | .error e => (some e, params)
  | .ok ps => (none, ps)

/-- A `TunedTranslation` operator: fixed axis and shape, and the weight
vector of its `shift` Choice sub-parameter (a categorical distribution
over the shifts `1 .. shape[axis] - 1`). -/
structure TunedTranslation where
  axis : Nat
  shape : List Nat
  weights : List ℚ

/-- `np.roll` on a 1-D list (the weight vector). -/
def listRoll (l : List ℚ) (k : Nat) : List ℚ :=
  (List.range l.length).map fun i => l.getD (rollIndexEntry l.length k i) 0

/-- Modelled from the spec: sampling a `Choice` over `numCat` categories
returns one of them (".value (sample/read current category)"); the
selection is abstracted as an oracle draw `r`, and an empty category set
cannot be sampled. -/
def choiceSample (numCat r : Nat) : Except PyErr Nat :=
  if numCat = 0 then .error .valueError else .ok (r % numCat)

/-- `self.shift.value`: a sample from `Choice(range(1, shape[axis]))`,
i.e. the `(r % (extent - 1))`-th of the categories `1 .. extent - 1`. -/
def TunedTranslation.sampledShift (t : TunedTranslation) (r : Nat) : Except PyErr Nat :=
  match choiceSample (t.shape.getD t.axis 0 - 1) r with
  | .error e => .error e
  | .ok i => .ok (1 + i)

/-- `TunedTranslation._apply_array`: samples the shift, rolls the weight
vector by it, and returns the input rolled by it along the fixed axis. -/
def TunedTranslation.applyArray (t : TunedTranslation) (r : Nat)
    (arrays : List NdArray) : Except PyErr (TunedTranslation × NdArray) :=
  if arrays.length ≠ 1 then .error .assertionError
  else
    let data := arrays.getD 0 default
    if data.shape ≠ t.shape then .error .assertionError
    else
      match t.sampledShift r with
      | .error e => .error e
      | .ok shift =>
        .ok ({ t with weights := listRoll t.weights shift },
             data.roll [t.axis] [shift])

/-- `TunedTranslation` under the base `apply`: on an exception both the
operator state (its weight vector) and the arrays are left untouched. -/
def TunedTranslation.applyPost (t : TunedTranslation) (r : Nat)
    (arrays : List NdArray) : Option PyErr × TunedTranslation × List NdArray :=
  match t.applyArray r arrays with
  | .error e => (some e, t, arrays)
  | .ok (t2, v) => (none, t2, arrays.set 0 v)

/-- The standardized representation at `idx` after a `LocalGaussian.apply`
call, with a fallback value for the exception case. -/
def stdAfter (fallback : ℚ) (r : Except PyErr (List ArrayParam)) (idx : List Nat) : ℚ :=
  match r with
  | .ok ps => (ps.getD 0 default).std idx
  | .error _ => fallback

/-- Success characterisation of the `_make_slices` loop, per position. -/
theorem makeSlicesFrom_ok_spec (axes : List Nat) (size : Nat) (rng : Nat → Nat) :
    ∀ (shape : List Nat) (a0 : Nat) (sl : List (Nat × Nat)),
      makeSlicesFrom axes size rng a0 shape = .ok sl →
      sl.length = shape.length ∧
      ∀ p, p < shape.length →
        (if (a0 + p) ∈ axes then
          1 < shape.getD p 0 ∧ size < shape.getD p 0 ∧
          sl.getD p (0, 0) =
            (rng (a0 + p) % (shape.getD p 0 - size),
             rng (a0 + p) % (shape.getD p 0 - size) + size)
        else sl.getD p (0, 0) = (0, shape.getD p 0)) := by
  intro shape
  induction shape with
  | nil =>
    intro a0 sl h
    simp [makeSlicesFrom] at h
    subst h
    simp
  | cons s rest ih =>
    intro a0 sl h
    simp only [makeSlicesFrom] at h
    by_cases ha : a0 ∈ axes
    · simp only [ha, if_true] at h
      by_cases hs : s ≤ 1
      · simp [hs] at h
      · simp only [hs, if_false] at h
        unfold randBelow at h
        by_cases hpos : (0 : Int) < (s : Int) - (size : Int)
        · simp only [hpos, if_true] at h
          cases htail : makeSlicesFrom axes size rng (a0 + 1) rest with
          | error e => simp [htail] at h
          | ok tail =>
            simp [htail] at h
            obtain ⟨hlen, hspec⟩ := ih (a0 + 1) tail htail
            subst h
            constructor
            · simp [hlen]
            · intro p hp
              cases p with
              | zero =>
                simp only [Nat.add_zero, ha, if_true, List.getD_cons_zero]
                have hlt : size < s := by
                  have := hpos
                  omega
                refine ⟨by omega, hlt, ?_⟩
                have : ((s : Int) - (size : Int)).toNat = s - size := by omega
                simp [this]
              | succ q =>
                have hq : q < rest.length := by simpa using hp
                have := hspec q hq
                have harith : a0 + (q + 1) = a0 + 1 + q := by omega
                rw [harith]
                simpa using this
        · simp [hpos] at h
    · simp only [ha, if_false] at h
      cases htail : makeSlicesFrom axes size rng (a0 + 1) rest with
      | error e => simp [htail] at h
      | ok tail =>
        simp [htail] at h
        obtain ⟨hlen, hspec⟩ := ih (a0 + 1) tail htail
        subst h
        constructor
        · simp [hlen]
        · intro p hp
          cases p with
          | zero => simp [ha]
          | succ q =>
            have hq : q < rest.length := by simpa using hp
            have := hspec q hq
            have harith : a0 + (q + 1) = a0 + 1 + q := by omega
            rw [harith]
            simpa using this

/-- If some targeted axis has extent ≤ 1, the `_make_slices` loop raises a
`ValueError` (either its own extent check, or — when an earlier targeted
axis already has an empty draw range — numpy's `randint`). -/
theorem makeSlicesFrom_err_of_bad_axis (axes : List Nat) (size : Nat) (rng : Nat → Nat) :
    ∀ (shape : List Nat) (a0 : Nat),
      (∃ p, p < shape.length ∧ (a0 + p) ∈ axes ∧ shape.getD p 0 ≤ 1) →
      makeSlicesFrom axes size rng a0 shape = .error .valueError := by
  intro shape
  induction shape with
  | nil =>
    intro a0 h
    obtain ⟨p, hp, -, -⟩ := h
    simp at hp
  | cons s rest ih =>
    intro a0 h
    obtain ⟨p, hp, hax, hext⟩ := h
    cases p with
    | zero =>
      simp only [Nat.add_zero] at hax
      simp only [List.getD_cons_zero] at hext
      simp [makeSlicesFrom, hax, hext]
    | succ q =>
      have hbad : ∃ p, p < rest.length ∧ (a0 + 1 + p) ∈ axes ∧ rest.getD p 0 ≤ 1 := by
        refine ⟨q, by simpa using hp, ?_, by simpa using hext⟩
        have : a0 + 1 + q = a0 + (q + 1) := by omega
        rw [this]
        exact hax
      have hrest := ih (a0 + 1) hbad
      simp only [makeSlicesFrom]
      by_cases ha : a0 ∈ axes
      · simp only [ha, if_true]
        by_cases hs : s ≤ 1
        · simp [hs]
        · simp only [hs, if_false]
          unfold randBelow
          by_cases hpos : (0 : Int) < (s : Int) - (size : Int)
          · simp [hpos, hrest]
          · simp [hpos]
      · simp [ha, hrest]

/-- Coordinates of an index inside a window lie in the per-axis ranges. -/
theorem inWindow_getD :
    ∀ (slices : List (Nat × Nat)) (idx : List Nat), inWindow slices idx = true →
      ∀ p, p < slices.length → p < idx.length →
        (slices.getD p (0, 0)).1 ≤ idx.getD p 0 ∧ idx.getD p 0 < (slices.getD p (0, 0)).2 := by
  intro slices
  induction slices with
  | nil => intro idx h p hp; simp at hp
  | cons sl rest ih =>
    intro idx h p hp hpi
    cases idx with
    | nil => simp at hpi
    | cons i irest =>
      simp only [inWindow, List.zip_cons_cons, List.all_cons, Bool.and_eq_true,
        decide_eq_true_eq] at h
      obtain ⟨⟨h1, h2⟩, hrest⟩ := h
      cases p with
      | zero => simpa using ⟨h1, h2⟩
      | succ q =>
        have := ih irest hrest q (by simpa using hp) (by simpa using hpi)
        simpa using this

/-- `List.foldl min` is bounded by its initial value. -/
theorem foldl_min_le_init (l : List Int) : ∀ i : Int, l.foldl min i ≤ i := by
  induction l with
  | nil => intro i; simp
  | cons x rest ih =>
    intro i
    calc (x :: rest).foldl min i = rest.foldl min (min i x) := by simp [List.foldl]
    _ ≤ min i x := ih (min i x)
    _ ≤ i := min_le_left _ _

/-- `List.foldl min` is bounded by every list element. -/
theorem foldl_min_le_mem (l : List Int) : ∀ (i a : Int), a ∈ l → l.foldl min i ≤ a := by
  induction l with
  | nil => intro i a ha; simp at ha
  | cons x rest ih =>
    intro i a ha
    rcases List.mem_cons.mp ha with h | h
    · subst h
      calc (a :: rest).foldl min i = rest.foldl min (min i a) := by simp [List.foldl]
      _ ≤ min i a := foldl_min_le_init rest _
      _ ≤ a := min_le_right _ _
    · calc (x :: rest).foldl min i = rest.foldl min (min i x) := by simp [List.foldl]
      _ ≤ a := ih _ a h

/-- `List.foldl min` is attained: it is the initial value or an element. -/
theorem foldl_min_attained (l : List Int) : ∀ i : Int, l.foldl min i = i ∨ l.foldl min i ∈ l := by
  induction l with
  | nil => intro i; simp
  | cons x rest ih =>
    intro i
    have hstep : (x :: rest).foldl min i = rest.foldl min (min i x) := by simp [List.foldl]
    rcases ih (min i x) with h | h
    · rcases min_cases i x with ⟨hmin, -⟩ | ⟨hmin, -⟩
      · left; rw [hstep, h, hmin]
      · right; rw [hstep, h, hmin]; exact List.mem_cons_self x rest
    · right
      rw [hstep]
      exact List.mem_cons_of_mem x h

/-- `defaultMaxSize n k` is the floor of the `k`-th root of `(n + 1) / 2`
(stated over `ℕ`: `2 * d ^ k ≤ n + 1 < 2 * (d + 1) ^ k`). -/
theorem defaultMaxSize_spec (n k : Nat) (hk : 1 ≤ k) :
    2 * defaultMaxSize n k ^ k ≤ n + 1 ∧ n + 1 < 2 * (defaultMaxSize n k + 1) ^ k := by
  have h0 : 2 * 0 ^ k ≤ n + 1 := by
    have h00 : (0 : Nat) ^ k = 0 := Nat.zero_pow (by omega)
    simp [h00]
  unfold defaultMaxSize
  constructor
  · exact Nat.findGreatest_spec (P := fun m => 2 * m ^ k ≤ n + 1) (Nat.zero_le _) h0
  · by_cases hle : Nat.findGreatest (fun m => 2 * m ^ k ≤ n + 1) (n + 1) + 1 ≤ n + 1
    · have hgr := Nat.findGreatest_is_greatest (P := fun m => 2 * m ^ k ≤ n + 1)
        (Nat.lt_succ_self _) hle
      have hgr2 : ¬ (2 * (Nat.findGreatest (fun m => 2 * m ^ k ≤ n + 1) (n + 1) + 1) ^ k ≤ n + 1) := hgr
      omega
    · have hb := Nat.findGreatest_le (P := fun m => 2 * m ^ k ≤ n + 1) (n + 1)
      have hd : Nat.findGreatest (fun m => 2 * m ^ k ≤ n + 1) (n + 1) = n + 1 := by omega
      rw [hd]
      have hpow : n + 1 + 1 ≤ (n + 1 + 1) ^ k := Nat.le_self_pow (by omega) _
      omega

/-- A cyclic shift by `extent - k` undoes a cyclic shift by `k`. -/
theorem rollIndexEntry_inverse (e k i : Nat) (hk : k < e) (hi : i < e) :
    rollIndexEntry e (e - k) (rollIndexEntry e k i) = i := by
  unfold rollIndexEntry
  rcases Nat.eq_zero_or_pos k with hk0 | hkpos
  · subst hk0
    have h0 : 0 % e = 0 := Nat.zero_mod e
    have hee : e % e = 0 := Nat.mod_self e
    rw [h0, Nat.sub_zero, Nat.add_mod_right, Nat.mod_eq_of_lt hi, hee, Nat.sub_zero,
      Nat.add_mod_right, Nat.mod_eq_of_lt hi]
  · have hke : k % e = k := Nat.mod_eq_of_lt hk
    have h2 : (e - k) % e = e - k := Nat.mod_eq_of_lt (by omega)
    rw [hke, h2]
    have h3 : e - (e - k) = k := by omega
    rw [h3, Nat.mod_add_mod]
    have h4 : i + (e - k) + k = i + e := by omega
    rw [h4, Nat.add_mod_right, Nat.mod_eq_of_lt hi]

/-- Looking up an axis in shift lists derived by `zipWith` over the same
axis list transforms the found shift pointwise. -/
theorem shiftFor_zipWith (f : Nat → Nat → Nat) :
    ∀ (axes v : List Nat) (p k : Nat), shiftFor axes v p = some k →
      shiftFor axes (List.zipWith f axes v) p = some (f p k) := by
  intro axes
  induction axes with
  | nil => intro v p k h; simp [shiftFor] at h
  | cons a arest ih =>
    intro v p k h
    cases v with
    | nil => simp [shiftFor] at h
    | cons x xrest =>
      simp only [shiftFor] at h
      simp only [List.zipWith_cons_cons, shiftFor]
      by_cases hpa : p = a
      · simp only [hpa, if_true] at h ⊢
        simp at h
        subst h
        subst hpa
        rfl
      · simp only [hpa, if_false] at h ⊢
        exact ih xrest p k h

/-- Failed axis lookups are preserved by `zipWith` shift lists of equal
length. -/
theorem shiftFor_zipWith_none (f : Nat → Nat → Nat) :
    ∀ (axes v : List Nat) (p : Nat), v.length = axes.length →
      shiftFor axes v p = none →
      shiftFor axes (List.zipWith f axes v) p = none := by
  intro axes
  induction axes with
  | nil => intro v p hlen h; cases v <;> simp [shiftFor]
  | cons a arest ih =>
    intro v p hlen h
    cases v with
    | nil => simp at hlen
    | cons x xrest =>
      simp only [shiftFor] at h
      simp only [List.zipWith_cons_cons, shiftFor]
      by_cases hpa : p = a
      · simp [hpa] at h
      · simp only [hpa, if_false] at h ⊢
        exact ih xrest p (by simpa using hlen) h

/-- A cyclic shift by `m` undoes a cyclic shift by `extent - m`. -/
theorem rollIndexEntry_inverse2 (e m i : Nat) (hm : m < e) (hi : i < e) :
    rollIndexEntry e m (rollIndexEntry e (e - m) i) = i := by
  rcases Nat.eq_zero_or_pos m with hm0 | hmpos
  · subst hm0
    unfold rollIndexEntry
    have hee : e % e = 0 := Nat.mod_self e
    have h0 : 0 % e = 0 := Nat.zero_mod e
    rw [Nat.sub_zero, hee, Nat.sub_zero, Nat.add_mod_right, Nat.mod_eq_of_lt hi,
      h0, Nat.sub_zero, Nat.add_mod_right, Nat.mod_eq_of_lt hi]
  · have h := rollIndexEntry_inverse e (e - m) i (by omega) hi
    have h2 : e - (e - m) = m := by omega
    rw [h2] at h
    exact h

/-- Composing the source maps of a roll by `v` (outer) with a roll by `w`
(inner) is the identity on valid indices, provided that, axis by axis, the
paired shifts are inverse cyclic shifts. -/
theorem rollSourceIdx_inverse (axes v w : List Nat) :
    ∀ (shape idx : List Nat) (p : Nat), validIdx shape idx = true →
      (∀ j m, shiftFor axes v (p + j) = some m →
        ∃ k, shiftFor axes w (p + j) = some k ∧
          ∀ i, i < shape.getD j 0 →
            rollIndexEntry (shape.getD j 0) m (rollIndexEntry (shape.getD j 0) k i) = i) →
      (∀ j, shiftFor axes v (p + j) = none → shiftFor axes w (p + j) = none) →
      rollSourceIdx axes v shape (rollSourceIdx axes w shape idx p) p = idx := by
  intro shape
  induction shape with
  | nil =>
    intro idx p hval H Hnone
    cases idx with
    | nil => simp [rollSourceIdx]
    | cons i irest => simp [validIdx] at hval
  | cons s srest ih =>
    intro idx p hval H Hnone
    cases idx with
    | nil => simp [validIdx] at hval
    | cons i irest =>
      simp only [validIdx, Bool.and_eq_true, decide_eq_true_eq] at hval
      obtain ⟨hi, hvrest⟩ := hval
      have Hrest : ∀ j m, shiftFor axes v (p + 1 + j) = some m →
          ∃ k, shiftFor axes w (p + 1 + j) = some k ∧
            ∀ i, i < srest.getD j 0 →
              rollIndexEntry (srest.getD j 0) m (rollIndexEntry (srest.getD j 0) k i) = i := by
        intro j m hj
        have harith : p + 1 + j = p + (j + 1) := by omega
        rw [harith] at hj
        have := H (j + 1) m hj
        rw [harith]
        simpa using this
      have Hnonerest : ∀ j, shiftFor axes v (p + 1 + j) = none →
          shiftFor axes w (p + 1 + j) = none := by
        intro j hj
        have harith : p + 1 + j = p + (j + 1) := by omega
        rw [harith] at hj
        rw [harith]
        exact Hnone (j + 1) hj
      simp only [rollSourceIdx]
      cases hsf : shiftFor axes v p with
      | none =>
        have hw := Hnone 0 (by simpa using hsf)
        simp only [Nat.add_zero] at hw
        simp only [hsf, hw]
        rw [ih irest (p + 1) hvrest Hrest Hnonerest]
      | some m =>
        have hk := H 0 m (by simpa using hsf)
        simp only [Nat.add_zero, List.getD_cons_zero] at hk
        obtain ⟨k, hw, hid⟩ := hk
        simp only [hsf, hw]
        rw [ih irest (p + 1) hvrest Hrest Hnonerest, hid i hi]

/-- Shifts drawn by `Translation` pair one draw per axis, each below the
axis extent. -/
theorem drawShiftsFrom_ok (shape : List Nat) (rng : Nat → Nat) :
    ∀ (axis : List Nat) (j : Nat) (v : List Nat),
      drawShiftsFrom shape rng j axis = .ok v →
      v.length = axis.length ∧
      ∀ p k, shiftFor axis v p = some k → k < shape.getD p 0 := by
  intro axis
  induction axis with
  | nil =>
    intro j v h
    simp only [drawShiftsFrom] at h
    simp at h
    subst h
    exact ⟨rfl, by intro p k h; simp [shiftFor] at h⟩
  | cons a arest ih =>
    intro j v h
    simp only [drawShiftsFrom, randBelow] at h
    by_cases hpos : 0 < shape.getD a 0
    · have hposI : (0 : Int) < (shape.getD a 0 : Int) := by exact_mod_cast hpos
      rw [if_pos hposI] at h
      simp only [Int.toNat_natCast] at h
      cases htail : drawShiftsFrom shape rng (j + 1) arest with
      | error e => simp [htail] at h
      | ok tail =>
        simp [htail] at h
        obtain ⟨hlen, hspec⟩ := ih (j + 1) tail htail
        subst h
        refine ⟨by simp [hlen], ?_⟩
        intro p k hk
        simp only [shiftFor] at hk
        by_cases hpa : p = a
        · subst hpa
          simp only [if_pos rfl] at hk
          simp at hk
          subst hk
          have := Nat.mod_lt (rng j) hpos
          simpa [List.getD] using this
        · simp only [hpa, if_false] at hk
          exact hspec p k hk
    · have hposI : ¬ (0 : Int) < (shape.getD a 0 : Int) := by exact_mod_cast hpos
      rw [if_neg hposI] at h
      simp at h

/-- Overwriting a window of an array with the same array is the identity. -/
theorem windowOverwrite_self (x : NdArray) (sl : List (Nat × Nat)) :
    windowOverwrite x x sl = x := by
  unfold windowOverwrite
  cases x with
  | mk shp d => simp

/-- `listRoll` preserves the length of the weight vector. -/
theorem listRoll_length (l : List ℚ) (k : Nat) : (listRoll l k).length = l.length := by
  simp [listRoll]

/-- Lookup in singleton axis/shift lists. -/
theorem shiftFor_single (a k p : Nat) :
    shiftFor [a] [k] p = if p = a then some k else none := by
  simp [shiftFor]

/-- Past the single rolled axis, the source map is the identity. -/
theorem rollSourceIdx_single_past (a k : Nat) :
    ∀ (shape idx : List Nat) (p : Nat), a < p →
      rollSourceIdx [a] [k] shape idx p = idx := by
  intro shape
  induction shape with
  | nil => intro idx p hp; cases idx <;> simp [rollSourceIdx]
  | cons s srest ih =>
    intro idx p hp
    cases idx with
    | nil => simp [rollSourceIdx]
    | cons i irest =>
      simp only [rollSourceIdx, shiftFor_single]
      have hne : ¬ (p = a) := by omega
      simp only [hne, if_false]
      rw [ih irest (p + 1) (by omega)]

/-- The source map of a single-axis roll only rewrites the coordinate of
that axis. -/
theorem rollSourceIdx_single (a k : Nat) :
    ∀ (shape idx : List Nat) (p : Nat), p ≤ a → validIdx shape idx = true →
      rollSourceIdx [a] [k] shape idx p =
        idx.set (a - p) (rollIndexEntry (shape.getD (a - p) 0) k (idx.getD (a - p) 0)) := by
  intro shape
  induction shape with
  | nil =>
    intro idx p hp hval
    cases idx with
    | nil => simp [rollSourceIdx]
    | cons i irest => simp [validIdx] at hval
  | cons s srest ih =>
    intro idx p hp hval
    cases idx with
    | nil => simp [validIdx] at hval
    | cons i irest =>
      simp only [validIdx, Bool.and_eq_true, decide_eq_true_eq] at hval
      obtain ⟨hi, hvrest⟩ := hval
      simp only [rollSourceIdx, shiftFor_single]
      rcases Nat.lt_or_ge p a with hlt | hge
      · have hne : ¬ (p = a) := by omega
        simp only [hne, if_false]
        rw [ih irest (p + 1) (by omega) hvrest]
        have hm : a - p = (a - (p + 1)) + 1 := by omega
        rw [hm]
        simp
      · have heq : p = a := by omega
        subst heq
        simp only [if_pos rfl]
        rw [rollSourceIdx_single_past p k srest irest (p + 1) (by omega)]
        have hz : p - p = 0 := by omega
        rw [hz]
        simp

/-- The `_make_slices` loop succeeds whenever every targeted axis is big
enough for the window. -/
theorem makeSlicesFrom_ok_of_fit (axes : List Nat) (size : Nat) (rng : Nat → Nat)
    (hsize : 1 ≤ size) :
    ∀ (shape : List Nat) (a0 : Nat),
      (∀ p, p < shape.length → (a0 + p) ∈ axes → size + 1 ≤ shape.getD p 0) →
      ∃ sl, makeSlicesFrom axes size rng a0 shape = .ok sl := by
  intro shape
  induction shape with
  | nil => intro a0 hfit; exact ⟨[], rfl⟩
  | cons s rest ih =>
    intro a0 hfit
    have hrest : ∀ p, p < rest.length → (a0 + 1 + p) ∈ axes → size + 1 ≤ rest.getD p 0 := by
      intro p hp hm
      have harith : a0 + 1 + p = a0 + (p + 1) := by omega
      rw [harith] at hm
      have := hfit (p + 1) (by simpa using hp) hm
      simpa using this
    obtain ⟨tail, htail⟩ := ih (a0 + 1) hrest
    simp only [makeSlicesFrom]
    by_cases ha : a0 ∈ axes
    · have hs := hfit 0 (by simp) (by simpa using ha)
      simp only [List.getD_cons_zero] at hs
      have hs1 : ¬ (s ≤ 1) := by omega
      have hpos : (0 : Int) < (s : Int) - (size : Int) := by omega
      simp only [ha, if_true, hs1, if_false]
      unfold randBelow
      rw [if_pos hpos]
      rw [htail]
      exact ⟨_, rfl⟩
    · simp only [ha, if_false]
      rw [htail]
      exact ⟨_, rfl⟩

/-- Per-position characterisation of a successful `_make_slices` call. -/
theorem makeSlices_ok_at (shape axes : List Nat) (size : Nat) (rng : Nat → Nat)
    (sl : List (Nat × Nat)) (h : makeSlices shape axes size rng = .ok sl) :
    sl.length = shape.length ∧
    ∀ p, p < shape.length →
      (p ∈ axes →
        1 < shape.getD p 0 ∧ size < shape.getD p 0 ∧
        sl.getD p (0, 0) =
          (rng p % (shape.getD p 0 - size), rng p % (shape.getD p 0 - size) + size)) ∧
      (p ∉ axes → sl.getD p (0, 0) = (0, shape.getD p 0)) := by
  obtain ⟨hlen, hspec⟩ := makeSlicesFrom_ok_spec axes size rng shape 0 sl h
  refine ⟨hlen, ?_⟩
  intro p hp
  have := hspec p hp
  simp only [Nat.zero_add] at this
  constructor
  · intro hm
    simpa [hm] using this
  · intro hm
    simpa [hm] using this

/-- C2: for every shape, axis subset and positive size with
`size ≤ extent - 1` on each targeted axis, `_make_slices` returns exactly
one `(start, stop)` range per dimension with `stop - start = size` and
`start` drawn uniformly from `[0, extent - size)` (each value of that
range reachable) on targeted axes, everything within `[0, extent]`, and
`(0, extent)` on untargeted axes; a targeted axis of extent ≤ 1 fails with
the `ValueError` the spec's taxonomy calls `InvalidAxisError`. -/
theorem makeSlices_window_spec (shape axes : List Nat) (size : Nat) (rng : Nat → Nat)
    (hsize : 1 ≤ size)
    (hfit : ∀ p, p < shape.length → p ∈ axes → size + 1 ≤ shape.getD p 0) :
    (∃ sl, makeSlices shape axes size rng = .ok sl ∧ sl.length = shape.length ∧
      ∀ p, p < shape.length →
        (p ∈ axes →
          (sl.getD p (0, 0)).2 = (sl.getD p (0, 0)).1 + size ∧
          (sl.getD p (0, 0)).1 < shape.getD p 0 - size ∧
          (sl.getD p (0, 0)).2 ≤ shape.getD p 0) ∧
        (p ∉ axes → sl.getD p (0, 0) = (0, shape.getD p 0))) ∧
    (∀ p, p < shape.length → p ∈ axes → ∀ v, v < shape.getD p 0 - size →
      ∃ sl, makeSlices shape axes size (fun _ => v) = .ok sl ∧
        sl.getD p (0, 0) = (v, v + size)) ∧
    (∀ (shape2 axes2 : List Nat) (size2 : Nat) (rng2 : Nat → Nat),
      (∃ p, p < shape2.length ∧ p ∈ axes2 ∧ shape2.getD p 0 ≤ 1) →
      makeSlices shape2 axes2 size2 rng2 = .error .valueError) := by
  refine ⟨?_, ?_, ?_⟩
  · obtain ⟨sl, hsl⟩ :=
      makeSlicesFrom_ok_of_fit axes size rng hsize shape 0 (by simpa using hfit)
    obtain ⟨hlen, hspec⟩ := makeSlices_ok_at shape axes size rng sl hsl
    refine ⟨sl, hsl, hlen, ?_⟩
    intro p hp
    obtain ⟨htgt, hnot⟩ := hspec p hp
    refine ⟨?_, hnot⟩
    intro hm
    obtain ⟨h1, h2, h3⟩ := htgt hm
    have hmod : rng p % (shape.getD p 0 - size) < shape.getD p 0 - size :=
      Nat.mod_lt _ (by omega)
    rw [h3]
    exact ⟨rfl, hmod, by show rng p % (shape.getD p 0 - size) + size ≤ shape.getD p 0; omega⟩
  · intro p hp hm v hv
    obtain ⟨sl, hsl⟩ :=
      makeSlicesFrom_ok_of_fit axes size (fun _ => v) hsize shape 0 (by simpa using hfit)
    obtain ⟨hlen, hspec⟩ := makeSlices_ok_at shape axes size (fun _ => v) sl hsl
    obtain ⟨h1, h2, h3⟩ := (hspec p hp).1 hm
    refine ⟨sl, hsl, ?_⟩
    rw [h3, Nat.mod_eq_of_lt hv]
  · intro shape2 axes2 size2 rng2 hbad
    exact makeSlicesFrom_err_of_bad_axis axes2 size2 rng2 shape2 0 (by simpa using hbad)

/-- C2 witness: applying the spec theorem to shape `[4]`, axes `{0}`,
size `2`, and its failure clause to shape `[1]`, axes `{0}`. -/
theorem makeSlices_window_spec_witness :
    makeSlices [1] [0] 1 (fun _ => 0) = .error PyErr.valueError :=
  (makeSlices_window_spec [4] [0] 2 (fun _ => 1) (by decide)
    (by
      intro p hp hm
      have hp0 : p = 0 := by
        simp at hp
        omega
      subst hp0
      decide)).2.2 [1] [0] 1 (fun _ => 0) ⟨0, by decide, by decide, by decide⟩

/-- C10: on a successful `_make_slices` call, every targeted axis's window
satisfies `stop ≤ extent - 1`, so the last index along a targeted axis is
never inside the window (Crossover never copies the final slice along a
targeted axis from the second array). -/
theorem makeSlices_stop_below_extent (shape axes : List Nat) (size : Nat) (rng : Nat → Nat)
    (sl : List (Nat × Nat)) (p : Nat)
    (hok : makeSlices shape axes size rng = .ok sl)
    (hp : p < shape.length) (hpax : p ∈ axes) :
    (sl.getD p (0, 0)).2 + 1 ≤ shape.getD p 0 ∧
    ∀ idx, inWindow sl idx = true → idx.length = shape.length →
      idx.getD p 0 + 1 < shape.getD p 0 := by
  obtain ⟨hlen, hspec⟩ := makeSlices_ok_at shape axes size rng sl hok
  obtain ⟨h1, h2, h3⟩ := (hspec p hp).1 hpax
  have hmod : rng p % (shape.getD p 0 - size) < shape.getD p 0 - size :=
    Nat.mod_lt _ (by omega)
  have hstop : (sl.getD p (0, 0)).2 + 1 ≤ shape.getD p 0 := by
    rw [h3]
    show rng p % (shape.getD p 0 - size) + size + 1 ≤ shape.getD p 0
    omega
  refine ⟨hstop, ?_⟩
  intro idx hin hlen2
  obtain ⟨hb1, hb2⟩ := inWindow_getD sl idx hin p (by omega) (by omega)
  omega

/-- C10 witness: shape `[4]`, targeted axis `0`, size `2`, draw `5`
produces the window `(1, 3)` whose `stop` is below the extent. -/
theorem makeSlices_stop_below_extent_witness :
    (([(1, 3)] : List (Nat × Nat)).getD 0 (0, 0)).2 + 1 ≤ ([4] : List Nat).getD 0 0 :=
  (makeSlices_stop_below_extent [4] [0] 2 (fun _ => 5) [(1, 3)] 0 (by rfl)
    (by decide) (by decide)).1

/-- C3: `Crossover`'s window-size resolution: with no configured
`max_size` it resolves to `⌊((totalElements + 1) / 2) ^ (1 / numAxes)⌋`
(float arithmetic idealised as exact); the result is clamped to
`min(max_size, min(shape[a] - 1 for a in axis))`; the drawn size is `1`
when the clamped maximum is `1`, and otherwise a uniform draw from
`[1, clampedMax)` (every value of that range reachable). -/
theorem crossover_size_resolution (c : Crossover) (shape axis : List Nat) (r m0 : Nat)
    (cm : Int)
    (hax : 1 ≤ axis.length)
    (hm0 : c.resolveMaxSize shape axis = m0)
    (hcm : clampMaxSize m0 shape axis = cm) :
    (c.maxSize = none →
      (m0 : ℚ) ^ axis.length ≤ ((shape.prod : ℚ) + 1) / 2 ∧
      ((shape.prod : ℚ) + 1) / 2 < ((m0 : ℚ) + 1) ^ axis.length) ∧
    (∀ m, c.maxSize = some m → m0 = m) ∧
    (cm ≤ (m0 : Int)) ∧
    (∀ a ∈ axis, cm ≤ (shape.getD a 0 : Int) - 1) ∧
    (cm = (m0 : Int) ∨ ∃ a ∈ axis, cm = (shape.getD a 0 : Int) - 1) ∧
    (cm = 1 → drawSize cm r = .ok 1) ∧
    (1 < cm → ∃ s, drawSize cm r = .ok s ∧ 1 ≤ s ∧ (s : Int) < cm) ∧
    (1 < cm → ∀ s : Nat, 1 ≤ s → (s : Int) < cm → ∃ r2, drawSize cm r2 = .ok s) := by
  subst hcm
  refine ⟨?_, ?_, ?_, ?_, ?_, ?_, ?_, ?_⟩
  · intro hnone
    have hdm : m0 = defaultMaxSize shape.prod axis.length := by
      rw [← hm0]
      simp [Crossover.resolveMaxSize, hnone]
    obtain ⟨ha, hb⟩ := defaultMaxSize_spec shape.prod axis.length hax
    rw [← hdm] at ha hb
    constructor
    · rw [le_div_iff₀ (by norm_num : (0 : ℚ) < 2)]
      have haQ : (2 : ℚ) * (m0 : ℚ) ^ axis.length ≤ (shape.prod : ℚ) + 1 := by
        exact_mod_cast ha
      linarith
    · rw [div_lt_iff₀ (by norm_num : (0 : ℚ) < 2)]
      have hbQ : (shape.prod : ℚ) + 1 < 2 * ((m0 : ℚ) + 1) ^ axis.length := by
        exact_mod_cast hb
      linarith
  · intro m hm
    rw [← hm0]
    simp [Crossover.resolveMaxSize, hm]
  · exact foldl_min_le_init _ _
  · intro a ha
    exact foldl_min_le_mem _ _ _ (List.mem_map_of_mem _ ha)
  · rcases foldl_min_attained ((axis.map fun a => (shape.getD a 0 : Int) - 1)) (m0 : Int)
      with h | h
    · exact Or.inl h
    · obtain ⟨a, haa, hfa⟩ := List.mem_map.mp h
      exact Or.inr ⟨a, haa, hfa.symm⟩
  · intro h1
    unfold drawSize
    rw [if_pos h1]
  · intro h1
    unfold drawSize
    rw [if_neg (by omega), if_pos h1]
    have hmod : r % (clampMaxSize m0 shape axis - 1).toNat <
        (clampMaxSize m0 shape axis - 1).toNat := Nat.mod_lt _ (by omega)
    exact ⟨_, rfl, by omega, by omega⟩
  · intro h1 s hs1 hs2
    refine ⟨s - 1, ?_⟩
    unfold drawSize
    rw [if_neg (by omega), if_pos h1]
    have hlt : s - 1 < (clampMaxSize m0 shape axis - 1).toNat := by omega
    rw [Nat.mod_eq_of_lt hlt]
    have hs : 1 + (s - 1) = s := by omega
    rw [hs]

/-- C3 witness: shape `(2, 2)` with both axes targeted and no configured
`max_size` resolves to the default `⌊(5 / 2) ^ (1 / 2)⌋ = 1`, the clamp
keeps it at `1`, and the drawn size is then `1`. -/
theorem crossover_size_resolution_witness : drawSize 1 0 = Except.ok 1 :=
  (crossover_size_resolution ⟨some [0, 1], none, false⟩ [2, 2] [0, 1] 0 1 1
    (by decide) (by decide) (by decide)).2.2.2.2.2.1 rfl

/-- C5: whenever some targeted axis of the (possibly spectral-domain)
arrays has extent 1, `Crossover._apply_array` fails with the `ValueError`
the spec's taxonomy calls `InvalidAxisError` (the clamped maximum reaches
0 and the size draw's range is empty). -/
theorem crossover_axis_extent_one_errors (c : Crossover) (fwd bwd : NdArray → NdArray)
    (rS : Nat) (rng : Nat → Nat) (arrays : List NdArray) (p : Nat)
    (hlen : arrays.length = 2)
    (hshape : ((transformed c fwd arrays).getD 0 default).shape =
      ((transformed c fwd arrays).getD 1 default).shape)
    (hp : p ∈ resolveAxes c.axis ((transformed c fwd arrays).getD 0 default).shape)
    (hext : ((transformed c fwd arrays).getD 0 default).shape.getD p 0 = 1) :
    c.applyArray fwd bwd rS rng arrays = .error .valueError := by
  have hax : resolveAxes c.axis ((transformed c fwd arrays).getD 0 default).shape ≠ [] :=
    List.ne_nil_of_mem hp
  have hcm : clampMaxSize
      (c.resolveMaxSize ((transformed c fwd arrays).getD 0 default).shape
        (resolveAxes c.axis ((transformed c fwd arrays).getD 0 default).shape))
      ((transformed c fwd arrays).getD 0 default).shape
      (resolveAxes c.axis ((transformed c fwd arrays).getD 0 default).shape) ≤ 0 := by
    have hmem := List.mem_map_of_mem
      (fun a => (((transformed c fwd arrays).getD 0 default).shape.getD a 0 : Int) - 1) hp
    have hle := foldl_min_le_mem _
      ((c.resolveMaxSize ((transformed c fwd arrays).getD 0 default).shape
        (resolveAxes c.axis ((transformed c fwd arrays).getD 0 default).shape) : Int)) _ hmem
    simp only [hext] at hle
    simpa [clampMaxSize] using hle
  have hds : ∀ cm : Int, cm ≤ 0 → drawSize cm rS = .error .valueError := by
    intro cm hcm0
    unfold drawSize
    rw [if_neg (by omega), if_neg (by omega)]
  unfold Crossover.applyArray
  rw [if_neg (by omega)]
  simp only []
  rw [if_neg (by simpa using hshape), if_neg hax, hds _ hcm]

/-- C5 witness: two 1-element arrays with axis 0 targeted. -/
theorem crossover_axis_extent_one_errors_witness :
    Crossover.applyArray ⟨some [0], some 3, false⟩ id id 0 (fun _ => 0)
      [⟨[1], fun _ => 0⟩, ⟨[1], fun _ => 0⟩] = .error PyErr.valueError :=
  crossover_axis_extent_one_errors ⟨some [0], some 3, false⟩ id id 0 (fun _ => 0)
    [⟨[1], fun _ => 0⟩, ⟨[1], fun _ => 0⟩] 0 (by decide) rfl (by decide) rfl

/-- C7: `Crossover._apply_array` on two identical arrays returns an array
equal to the input, whatever window is drawn and for either value of the
spectral flag (the spectral transform being reversible, per the spec). -/
theorem crossover_identical_identity (c : Crossover) (fwd bwd : NdArray → NdArray)
    (rS : Nat) (rng : Nat → Nat) (a r : NdArray)
    (hinv : ∀ x, bwd (fwd x) = x)
    (hok : c.applyArray fwd bwd rS rng [a, a] = .ok r) :
    r = a := by
  unfold Crossover.applyArray at hok
  rw [if_neg (by simp)] at hok
  cases hf : c.fft with
  | false =>
    simp only [transformed, hf, Bool.false_eq_true, if_false, List.getD_cons_zero,
      List.getD_cons_succ] at hok
    rw [if_neg (by simp)] at hok
    by_cases hax : resolveAxes c.axis a.shape = []
    · rw [if_pos hax] at hok
      simp at hok
    · rw [if_neg hax] at hok
      cases hds : drawSize (clampMaxSize (c.resolveMaxSize a.shape
          (resolveAxes c.axis a.shape)) a.shape (resolveAxes c.axis a.shape)) rS with
      | error e =>
        rw [hds] at hok
        simp at hok
      | ok size =>
        rw [hds] at hok
        have hok2 : (match makeSlices a.shape (resolveAxes c.axis a.shape) size rng with
          | Except.error e => Except.error e
          | Except.ok slices => Except.ok (windowOverwrite a a slices)) = Except.ok r := hok
        cases hsl : makeSlices a.shape (resolveAxes c.axis a.shape) size rng with
        | error e =>
          rw [hsl] at hok2
          simp at hok2
        | ok sl =>
          rw [hsl] at hok2
          simp only [Except.ok.injEq] at hok2
          rw [← hok2, windowOverwrite_self]
  | true =>
    simp only [transformed, hf, if_true, List.map_cons, List.map_nil,
      List.getD_cons_zero, List.getD_cons_succ] at hok
    rw [if_neg (by simp)] at hok
    by_cases hax : resolveAxes c.axis (fwd a).shape = []
    · rw [if_pos hax] at hok
      simp at hok
    · rw [if_neg hax] at hok
      cases hds : drawSize (clampMaxSize (c.resolveMaxSize (fwd a).shape
          (resolveAxes c.axis (fwd a).shape)) (fwd a).shape
          (resolveAxes c.axis (fwd a).shape)) rS with
      | error e =>
        rw [hds] at hok
        simp at hok
      | ok size =>
        rw [hds] at hok
        have hok2 : (match makeSlices (fwd a).shape (resolveAxes c.axis (fwd a).shape)
            size rng with
          | Except.error e => Except.error e
          | Except.ok slices =>
            Except.ok (bwd (windowOverwrite (fwd a) (fwd a) slices))) = Except.ok r := hok
        cases hsl : makeSlices (fwd a).shape (resolveAxes c.axis (fwd a).shape) size rng with
        | error e =>
          rw [hsl] at hok2
          simp at hok2
        | ok sl =>
          rw [hsl] at hok2
          simp only [Except.ok.injEq] at hok2
          rw [← hok2, windowOverwrite_self, hinv]

/-- C7 witness: a concrete non-spectral crossover of an array with itself. -/
theorem crossover_identical_identity_witness :
    windowOverwrite ⟨[3], fun _ => 7⟩ ⟨[3], fun _ => 7⟩ [(0, 1)] = ⟨[3], fun _ => 7⟩ :=
  crossover_identical_identity ⟨some [0], some 2, false⟩ id id 0 (fun _ => 0)
    ⟨[3], fun _ => 7⟩ (windowOverwrite ⟨[3], fun _ => 7⟩ ⟨[3], fun _ => 7⟩ [(0, 1)])
    (fun _ => rfl) rfl

/-- C6: whenever an operator's `apply` fails (wrong arity, mismatched
shape, or invalid axis), the target parameter is unchanged — the complete
result is computed before any write, so no partial mutation leaks. -/
theorem apply_no_partial_mutation_on_error :
    (∀ (c : Crossover) (fwd bwd clip : NdArray → NdArray) (hb : Bool) (rS : Nat)
        (rng : Nat → Nat) (arrays : List NdArray) (e : PyErr),
      (c.applyPost fwd bwd clip hb rS rng arrays).1 = some e →
      (c.applyPost fwd bwd clip hb rS rng arrays).2 = arrays) ∧
    (∀ (t : Translation) (rng : Nat → Nat) (arrays : List NdArray) (e : PyErr),
      (mutationApplyPost (t.applyArray rng) arrays).1 = some e →
      (mutationApplyPost (t.applyArray rng) arrays).2 = arrays) ∧
    (∀ (g : LocalGaussian) (rng : Nat → Nat) (noise : List Nat → ℚ)
        (params : List ArrayParam) (e : PyErr),
      (g.applyPost rng noise params).1 = some e →
      (g.applyPost rng noise params).2 = params) ∧
    (∀ (t : TunedTranslation) (r : Nat) (arrays : List NdArray) (e : PyErr),
      (t.applyPost r arrays).1 = some e →
      (t.applyPost r arrays).2.1 = t ∧ (t.applyPost r arrays).2.2 = arrays) := by
  refine ⟨?_, ?_, ?_, ?_⟩
  · intro c fwd bwd clip hb rS rng arrays e h
    unfold Crossover.applyPost at h ⊢
    cases hres : c.applyArray fwd bwd rS rng arrays with
    | error e2 => simp [hres]
    | ok v => simp [hres] at h
  · intro t rng arrays e h
    unfold mutationApplyPost at h ⊢
    cases hres : t.applyArray rng arrays with
    | error e2 => simp [hres]
    | ok v => simp [hres] at h
  · intro g rng noise params e h
    unfold LocalGaussian.applyPost at h ⊢
    cases hres : g.apply rng noise params with
    | error e2 => simp [hres]
    | ok v => simp [hres] at h
  · intro t r arrays e h
    unfold TunedTranslation.applyPost at h ⊢
    cases hres : t.applyArray r arrays with
    | error e2 => simp [hres]
    | ok v => simp [hres] at h

/-- C6 witness: a `Crossover` invoked with three arrays fails, and the
array list is unchanged. -/
theorem apply_no_partial_mutation_on_error_witness :
    (Crossover.applyPost ⟨none, none, false⟩ id id id false 0 (fun _ => 0)
      [⟨[1], fun _ => 0⟩, ⟨[1], fun _ => 0⟩, ⟨[1], fun _ => 0⟩]).2 =
      [⟨[1], fun _ => 0⟩, ⟨[1], fun _ => 0⟩, ⟨[1], fun _ => 0⟩] :=
  apply_no_partial_mutation_on_error.1 ⟨none, none, false⟩ id id id false 0 (fun _ => 0)
    [⟨[1], fun _ => 0⟩, ⟨[1], fun _ => 0⟩, ⟨[1], fun _ => 0⟩] PyErr.exception rfl

/-- C4: `TunedTranslation._apply_array` on an array of the configured
shape returns an array of the same shape, equal to the input cyclically
shifted along the fixed axis by the sampled shift; the shift lies in
`[1, extent - 1]`; and the weight vector of the `shift` Choice is rolled
by exactly that shift. -/
theorem tunedTranslation_apply_spec (t t2 : TunedTranslation) (r e shift : Nat)
    (data res : NdArray)
    (he : t.shape.getD t.axis 0 = e) (he2 : 2 ≤ e)
    (hdata : data.shape = t.shape)
    (hshift : t.sampledShift r = .ok shift)
    (hok : t.applyArray r [data] = .ok (t2, res)) :
    res.shape = data.shape ∧
    1 ≤ shift ∧ shift ≤ e - 1 ∧
    t2.weights = listRoll t.weights shift ∧
    t2.weights.length = t.weights.length ∧
    ∀ idx, validIdx data.shape idx = true →
      res.data idx = data.data (idx.set t.axis (rollIndexEntry e shift (idx.getD t.axis 0))) := by
  have hs2 := hshift
  unfold TunedTranslation.sampledShift choiceSample at hshift
  rw [if_neg (by omega)] at hshift
  simp only [Except.ok.injEq] at hshift
  have hmod : r % (t.shape.getD t.axis 0 - 1) < t.shape.getD t.axis 0 - 1 :=
    Nat.mod_lt _ (by omega)
  unfold TunedTranslation.applyArray at hok
  rw [if_neg (by simp)] at hok
  simp only [List.getD_cons_zero] at hok
  rw [if_neg (by simp [hdata])] at hok
  rw [hs2] at hok
  simp only [Except.ok.injEq, Prod.mk.injEq] at hok
  obtain ⟨ht2, hres⟩ := hok
  subst hres
  refine ⟨rfl, by omega, by omega, ?_, ?_, ?_⟩
  · rw [← ht2]
  · rw [← ht2, listRoll_length]
  · intro idx hval
    show data.data (rollSourceIdx [t.axis] [shift] data.shape idx 0) =
      data.data (idx.set t.axis (rollIndexEntry e shift (idx.getD t.axis 0)))
    rw [rollSourceIdx_single t.axis shift data.shape idx 0 (Nat.zero_le _) hval]
    simp only [Nat.sub_zero]
    rw [hdata, he]

/-- C4 witness: shape `[3]`, axis `0`, oracle draw `0` samples shift `1`;
position `2` of the result reads position `1` of the input. -/
theorem tunedTranslation_apply_spec_witness :
    (NdArray.roll ⟨[3], fun idx => (idx.getD 0 0 : ℚ)⟩ [0] [1]).data [2] = 1 := by
  have h := (tunedTranslation_apply_spec ⟨0, [3], [1, 2]⟩
    ⟨0, [3], listRoll [1, 2] 1⟩ 0 3 1
    ⟨[3], fun idx => (idx.getD 0 0 : ℚ)⟩
    (NdArray.roll ⟨[3], fun idx => (idx.getD 0 0 : ℚ)⟩ [0] [1])
    rfl (by decide) rfl rfl rfl).2.2.2.2.2 [2] (by decide)
  rw [h]
  decide

/-- C8: the cyclic shift performed by `Translation` with shift vector `v`
on its resolved axis set, followed by the cyclic shift by `extent - v` per
axis, restores the original array on every valid index. -/
theorem translation_roll_inverse (t : Translation) (rng : Nat → Nat) (x y : NdArray)
    (axes v : List Nat)
    (haxes : axes = resolveAxes t.axis x.shape)
    (hnodup : axes.Nodup)
    (hv : drawShiftsFrom x.shape rng 0 axes = .ok v)
    (hok : t.applyArray rng [x] = .ok y) :
    y = x.roll axes v ∧
    ∀ idx, validIdx x.shape idx = true →
      ((x.roll axes v).roll axes
        (List.zipWith (fun a k => x.shape.getD a 0 - k) axes v)).data idx = x.data idx := by
  obtain ⟨hlen, hbound⟩ := drawShiftsFrom_ok x.shape rng axes 0 v hv
  constructor
  · unfold Translation.applyArray at hok
    rw [if_neg (by simp)] at hok
    simp only [List.getD_cons_zero] at hok
    rw [← haxes, hv] at hok
    simp at hok
    exact hok.symm
  · intro idx hval
    show x.data (rollSourceIdx axes v x.shape
      (rollSourceIdx axes (List.zipWith (fun a k => x.shape.getD a 0 - k) axes v)
        x.shape idx 0) 0) = x.data idx
    congr 1
    apply rollSourceIdx_inverse
    · exact hval
    · intro j m hj
      simp only [Nat.zero_add] at hj ⊢
      refine ⟨x.shape.getD j 0 - m, shiftFor_zipWith _ axes v j m hj, ?_⟩
      intro i hi
      exact rollIndexEntry_inverse2 (x.shape.getD j 0) m i (hbound j m hj) hi
    · intro j hj
      simp only [Nat.zero_add] at hj ⊢
      exact shiftFor_zipWith_none _ axes v j hlen hj

/-- C8 witness: a 3-element array translated by 1 and back by 2. -/
theorem translation_roll_inverse_witness :
    ((NdArray.roll (NdArray.roll ⟨[3], fun _ => 7⟩ [0] [1]) [0]
      (List.zipWith (fun a k => ([3] : List Nat).getD a 0 - k) [0] [1])).data [2] = 7) := by
  have h := (translation_roll_inverse ⟨some [0]⟩ (fun _ => 1)
    ⟨[3], fun _ => 7⟩ (NdArray.roll ⟨[3], fun _ => 7⟩ [0] [1]) [0] [1]
    rfl (by decide) rfl rfl).2 [2] (by decide)
  rw [h]

/-- C9: after a successful `LocalGaussian.apply`, the standardized
representation written into the parameter is exactly zero outside the
drawn window, equals the drawn noise inside it, and does not depend on the
parameter's previous standardized data (which is discarded). -/
theorem localGaussian_overwrites_standardized (g : LocalGaussian) (rng : Nat → Nat)
    (noise : List Nat → ℚ) (p0 : ArrayParam) (ps : List ArrayParam)
    (sl : List (Nat × Nat))
    (hsl : makeSlices p0.shape (resolveAxes g.axes p0.shape) g.size rng = .ok sl)
    (hok : g.apply rng noise [p0] = .ok ps) :
    ∃ p1, ps = [p1] ∧ p1.shape = p0.shape ∧
      (∀ idx, inWindow sl idx = false → p1.std idx = 0) ∧
      (∀ idx, inWindow sl idx = true → p1.std idx = noise idx) ∧
      (∀ (q : ArrayParam) (qs : List ArrayParam), q.shape = p0.shape →
        g.apply rng noise [q] = .ok qs →
        ∀ idx, (qs.getD 0 default).std idx = p1.std idx) := by
  unfold LocalGaussian.apply at hok
  rw [if_neg (by simp)] at hok
  simp only [List.getD_cons_zero] at hok
  rw [hsl] at hok
  simp only [Except.ok.injEq] at hok
  refine ⟨⟨p0.shape, fun idx => if inWindow sl idx then noise idx else 0⟩,
    hok.symm, rfl, ?_, ?_, ?_⟩
  · intro idx h
    simp [h]
  · intro idx h
    simp [h]
  · intro q qs hq hqs idx
    unfold LocalGaussian.apply at hqs
    rw [if_neg (by simp)] at hqs
    simp only [List.getD_cons_zero] at hqs
    rw [hq] at hqs
    rw [hsl] at hqs
    simp only [Except.ok.injEq] at hqs
    rw [← hqs]
    simp

/-- C9 witness: a 2-element parameter with nonzero standardized data; the
window is `(0, 1)` and afterwards the standardized representation is the
noise at index 0 and zero at index 1. -/
theorem localGaussian_overwrites_standardized_witness :
    stdAfter 9 (LocalGaussian.apply ⟨none, 1⟩ (fun _ => 0) (fun _ => 5)
      [⟨[2], fun _ => 1⟩]) [1] = 0 := by
  obtain ⟨p1, hps, -, hout, -, -⟩ := localGaussian_overwrites_standardized
    ⟨none, 1⟩ (fun _ => 0) (fun _ => 5) ⟨[2], fun _ => 1⟩
    [⟨[2], fun idx => if inWindow [(0, 1)] idx then 5 else 0⟩] [(0, 1)] rfl rfl
  show ((([⟨[2], fun idx => if inWindow [(0, 1)] idx then 5 else 0⟩] :
    List ArrayParam)).getD 0 default).std [1] = 0
  rw [hps]
  simp only [List.getD_cons_zero]
  exact hout [1] rfl

/-- C1 counterexample: the claim says elements of the standardized
representation outside the window are unchanged; but a parameter whose
standardized data is `1` everywhere ends with `0` outside the window
after a successful `LocalGaussian.apply` call. -/
theorem localGaussian_outside_unchanged_cex :
    makeSlices [2] (resolveAxes none [2]) 1 (fun _ => 0) = .ok [(0, 1)] ∧
    inWindow [(0, 1)] [1] = false ∧
    (⟨[2], fun _ => 1⟩ : ArrayParam).std [1] = 1 ∧
    stdAfter 1 (LocalGaussian.apply ⟨none, 1⟩ (fun _ => 0) (fun _ => 5)
      [⟨[2], fun _ => 1⟩]) [1] = 0 := by
  refine ⟨rfl, rfl, rfl, ?_⟩
  rfl

/-- C1 (amended): a `LocalGaussian.apply` call writes, as the target's
standardized representation, the freshly drawn noise inside the drawn
window and zero outside it — so an element outside the window is
unchanged only when its previous standardized value was zero. -/
theorem localGaussian_window_effect_amended (g : LocalGaussian) (rng : Nat → Nat)
    (noise : List Nat → ℚ) (p0 : ArrayParam) (ps : List ArrayParam)
    (sl : List (Nat × Nat))
    (hsl : makeSlices p0.shape (resolveAxes g.axes p0.shape) g.size rng = .ok sl)
    (hok : g.apply rng noise [p0] = .ok ps) :
    ∃ p1, ps = [p1] ∧ p1.shape = p0.shape ∧
      (∀ idx, inWindow sl idx = true → p1.std idx = noise idx) ∧
      (∀ idx, inWindow sl idx = false →
        (p1.std idx = 0 ∧ (p1.std idx = p0.std idx ↔ p0.std idx = 0))) := by
  unfold LocalGaussian.apply at hok
  rw [if_neg (by simp)] at hok
  simp only [List.getD_cons_zero] at hok
  rw [hsl] at hok
  simp only [Except.ok.injEq] at hok
  refine ⟨⟨p0.shape, fun idx => if inWindow sl idx then noise idx else 0⟩,
    hok.symm, rfl, ?_, ?_⟩
  · intro idx h
    simp [h]
  · intro idx h
    constructor
    · simp [h]
    · simp only [h]
      constructor
      · intro h2
        simp at h2
        exact h2.symm
      · intro h2
        simp [h2]

/-- C1 amended witness: with prior standardized data `0`, the element at
index 1 (outside the window `(0, 1)`) is indeed unchanged. -/
theorem localGaussian_window_effect_amended_witness :
    stdAfter 9 (LocalGaussian.apply ⟨none, 1⟩ (fun _ => 0) (fun _ => 5)
      [⟨[2], fun _ => 0⟩]) [1] = 0 := by
  obtain ⟨p1, hps, -, -, hout⟩ := localGaussian_window_effect_amended
    ⟨none, 1⟩ (fun _ => 0) (fun _ => 5) ⟨[2], fun _ => 0⟩
    [⟨[2], fun idx => if inWindow [(0, 1)] idx then 5 else 0⟩] [(0, 1)] rfl rfl
  show ((([⟨[2], fun idx => if inWindow [(0, 1)] idx then 5 else 0⟩] :
    List ArrayParam)).getD 0 default).std [1] = 0
  rw [hps]
  simp only [List.getD_cons_zero]
  exact (hout [1] rfl).1

end Mutation
